import Mathlib

/-!
Shallow embedding of the Cat Chaos game (`src/code.py`): quadrature decoding
of the rotary encoder, exponential filtering of the accelerometer, gesture
recognition under a deadline, sequence generation, the level/score loop of
`play_game`, and the high-score logic of `end_screen`.

Hardware inputs (pin levels, accelerometer samples, the monotonic clock and
the random source) are modelled as explicit streams or parameters; the
process-wide mutable globals (`encoder_value`, `last_state`, `fx`/`fy`/`fz`)
become explicit state records threaded through each call.  Python floats are
modelled as exact rationals.
-/

namespace CatChaos

/-- A leaderboard entry: a player name and an integer score (one of the
name/score objects of `highscores.json`). -/
structure Entry where
  name : String
  score : Int
  deriving DecidableEq

/-- The fixed action set (`ACTIONS` list, line 290 of the source). -/
def ACTIONS : List String := ["PAW", "TAIL_LEFT", "TAIL_RIGHT", "SHAKE", "FLIP"]

/-- `generate_sequence(level)` (source lines 292-304): `level + 1` draws of
`random.choice(ACTIONS)`.  The underlying random source is modelled as a
stream `rng` of naturals; the draw at position `i` picks the element of
`ACTIONS` at index `rng i % 5`. -/
def generate_sequence (rng : Nat → Nat) (level : Nat) : List String :=
  (List.range (level + 1)).map fun i => ACTIONS.getD (rng i % 5) "PAW"

/-- State of the quadrature decoder: the cumulative counter `encoder_value`
and the previously stored `(clock, data)` pair `last_state`
(source lines 127-129). -/
structure EncState where
  value : Int
  last : Bool × Bool
  deriving DecidableEq

/-- `update_encoder()` (source lines 131-154) on one freshly sampled
`(clock, data)` pair.  The counter moves only when the pair differs from the
stored pair and the clock line goes low→high; `+1` when data is low,
`-1` when data is high; the stored pair is refreshed on every change. -/
def update_encoder (st : EncState) (clk dt : Bool) : EncState :=
  let state := (clk, dt)
  if state ≠ st.last then
    if st.last.1 = false ∧ state.1 = true then
      if state.2 = false then { value := st.value + 1, last := state }
      else { value := st.value - 1, last := state }
    else { value := st.value, last := state }
  else st

/-- The smoothing factor `alpha = 0.2` (source line 167). -/
def alpha : ℚ := 2 / 10

/-- One axis of the exponential moving average of `read_accel`
(source lines 186-188): `filtered = alpha*raw + (1-alpha)*filtered_prev`. -/
def emaStep (raw prev : ℚ) : ℚ := alpha * raw + (1 - alpha) * prev

/-- `read_accel()` (source lines 169-190): updates all three filtered axes
from one raw sample and returns them.  The persistent globals `fx, fy, fz`
are the second argument; the result is the new persistent state. -/
def read_accel (raw : ℚ × ℚ × ℚ) (f : ℚ × ℚ × ℚ) : ℚ × ℚ × ℚ :=
  (emaStep raw.1 f.1, emaStep raw.2.1 f.2.1, emaStep raw.2.2 f.2.2)

/-- The filtered value of one axis after `n` updates on a constant raw
stream of value `v`, starting from `f0`. -/
def emaIter (v f0 : ℚ) : Nat → ℚ
  | 0 => f0
  | n + 1 => emaStep v (emaIter v f0 n)

/-- One hardware poll inside the `detect_action` loop: the monotonic-clock
reading (as elapsed seconds since the loop started), the two encoder lines,
the button line `sw.value` (active low), and the raw accelerometer sample. -/
structure Sample where
  elapsed : ℚ
  clk : Bool
  dt : Bool
  sw : Bool
  ax : ℚ
  ay : ℚ
  az : ℚ
  deriving DecidableEq, Inhabited

/-- The process-wide state read and written by `detect_action`: the decoder
state and the three filtered axes. -/
structure DetState where
  enc : EncState
  fx : ℚ
  fy : ℚ
  fz : ℚ
  deriving DecidableEq

/-- One iteration of the polling loop body of `detect_action`
(source lines 332-333): `update_encoder()` then `read_accel()`. -/
def stepState (st : DetState) (s : Sample) : DetState :=
  { enc := update_encoder st.enc s.clk s.dt
    fx := emaStep s.ax st.fx
    fy := emaStep s.ay st.fy
    fz := emaStep s.az st.fz }

/-- The per-gesture success predicates of `detect_action`
(source lines 336-359), tested against the just-updated state and the
current button sample: PAW — button line low; TAIL_LEFT — counter `< -2`;
TAIL_RIGHT — counter `> 2`; SHAKE — `|filtered x| > 15`; FLIP —
`filtered z < -5`. -/
def predHolds (action : String) (st : DetState) (s : Sample) : Bool :=
  if action = "PAW" then !s.sw
  else if action = "TAIL_LEFT" then decide (st.enc.value < -2)
  else if action = "TAIL_RIGHT" then decide (2 < st.enc.value)
  else if action = "SHAKE" then decide (15 < |st.fx|)
  else if action = "FLIP" then decide (st.fz < -5)
  else false

/-- `encoder_value = 0` at the entry of `detect_action` (source line 326):
only the cumulative counter is reset; the stored pair and the filter
state persist. -/
def resetEnc (st : DetState) : DetState :=
  { st with enc := { st.enc with value := 0 } }

/-- The polling loop of `detect_action` (source lines 330-364) over the
stream of hardware polls: each iteration first re-reads the monotonic clock
(`while time.monotonic() - start < time_limit`), returning `false` once the
elapsed time reaches the limit; otherwise it advances the decoder and the
filter and returns `true` as soon as the gesture predicate holds.  `none`
means the finite sample list was exhausted before either exit. -/
def detect_aux (action : String) (limit : ℚ) : List Sample → DetState → Option Bool
  | [], _ => none
  | s :: rest, st =>
    if limit ≤ s.elapsed then some false
    else
      let st' := stepState st s
      if predHolds action st' s then some true
      else detect_aux action limit rest st'

/-- `detect_action(action, time_limit)` (source lines 307-364): reset the
cumulative encoder counter to 0, then run the bounded polling loop. -/
def detect_action (action : String) (limit : ℚ) (samples : List Sample) (st : DetState) :
    Option Bool :=
  detect_aux action limit samples (resetEnc st)

/-- The decoder/filter state after folding an initial segment of the polls. -/
def stateAfter (st : DetState) (samples : List Sample) : DetState :=
  samples.foldl stepState st

/-- There is a poll index `n` such that every poll up to and including `n`
happens strictly before the deadline, the gesture predicate holds at poll
`n` (against the state updated through poll `n`), and at no earlier poll.
This is exactly the condition under which the `detect_action` loop announces
success. -/
def FirstMatch (action : String) (limit : ℚ) (st : DetState) (samples : List Sample) : Prop :=
  ∃ n, n < samples.length ∧
    (∀ k, k ≤ n → (samples.getD k default).elapsed < limit) ∧
    predHolds action (stateAfter st (samples.take (n + 1))) (samples.getD n default) = true ∧
    ∀ k, k < n → predHolds action (stateAfter st (samples.take (k + 1))) (samples.getD k default) = false

/-- The base time limit per difficulty (source lines 387-389): 2.0 for
EASY, 1.5 for MEDIUM, otherwise (HARD) 1.0. -/
def baseOf (diff : String) : ℚ :=
  if diff = "EASY" then 2
  else if diff = "MEDIUM" then 3 / 2
  else 1

/-- `time_limit = base * (0.92 ** level)` (source line 410).  The source
recomputes this inside the step loop, but it depends only on the level,
never on the step index. -/
def time_limit (diff : String) (level : Nat) : ℚ :=
  baseOf diff * (92 / 100) ^ level

/-- The inner step loop of `play_game` (source lines 398-416): walk the
generated sequence; each step calls the recognizer with the per-level time
limit; a failure returns the current score and `False` immediately, a
success adds 1 to the score.  The recognizer is abstracted as an oracle
`detect level stepIndex action timeLimit`. -/
def stepLoop (detect : Nat → Nat → String → ℚ → Bool) (diff : String) (level : Nat) :
    List String → Nat → Nat → Nat × Bool
  | [], _, score => (score, true)
  | act :: rest, i, score =>
    if detect level i act (time_limit diff level) then
      stepLoop detect diff level rest (i + 1) (score + 1)
    else (score, false)

/-- The outer level loop of `play_game` (source lines 394-422): for each
level, generate a sequence, run the step loop, stop with its result if it
failed, otherwise add the flat `+5` level bonus and continue.  `fuel` is
the number of levels still to play (`range(1, 11)` gives 10). -/
def levelLoop (detect : Nat → Nat → String → ℚ → Bool) (rng : Nat → Nat → Nat)
    (diff : String) : Nat → Nat → Nat → Nat × Bool
  | _, score, 0 => (score, true)
  | level, score, fuel + 1 =>
    let r := stepLoop detect diff level (generate_sequence (rng level) level) 0 score
    if r.2 then levelLoop detect rng diff (level + 1) (r.1 + 5) fuel else r

/-- `play_game(diff)` (source lines 367-425): levels 1..10, score starts at
0; returns `(score, won)`. -/
def play_game (detect : Nat → Nat → String → ℚ → Bool) (rng : Nat → Nat → Nat)
    (diff : String) : Nat × Bool :=
  levelLoop detect rng diff 1 0 10

/-- `DEFAULT_SCORES` (source lines 434-438). -/
def DEFAULT_SCORES : List Entry := [⟨"AAA", 0⟩, ⟨"BBB", 0⟩, ⟨"CCC", 0⟩]

/-- `load_highscores()` (source lines 441-455).  The `try`/`except` around
the file read and JSON parse is modelled by an `Option`: `some scores` is a
successful read, `none` is any failure (missing file, unreadable content,
malformed JSON), on which the copy of `DEFAULT_SCORES` is returned. -/
def load_highscores (readResult : Option (List Entry)) : List Entry :=
  match readResult with
  | some scores => scores
  | none => DEFAULT_SCORES

/-- The high-score entry trigger of `end_screen` (source line 580):
`score > scores[-1]["score"]`.  Indexing `[-1]` of an empty list raises
`IndexError`, hence the `Option`: `none` models the exception. -/
def qualifies_code (score : Int) (scores : List Entry) : Option Bool :=
  match scores.getLast? with
  | none => none
  | some e => some (decide (e.score < score))

/-- The entry scores padded with zeros up to the fixed size 3 (only used by
the spec-side notion of qualification below). -/
def paddedScores (entries : List Entry) : List Int :=
  entries.map Entry.score ++ List.replicate (3 - entries.length) 0

/-- The qualification test as the spec words it: the score strictly
exceeds the lowest score currently held, where missing slots (fewer than 3
entries) count as score 0.  Stated for comparison with `qualifies_code`. -/
def qualifies_spec (score : Int) (entries : List Entry) : Bool :=
  decide (((paddedScores entries).min?.getD 0) < score)

/-- Descending order on entries: `scoreGE a b` iff the score of `a` is at
least the score of `b`.  This is the order produced by
`sorted(scores, key=lambda x: x["score"], reverse=True)`. -/
def scoreGE (a b : Entry) : Prop := b.score ≤ a.score

instance : DecidableRel scoreGE := fun a b => inferInstanceAs (Decidable (b.score ≤ a.score))

instance : IsTotal Entry scoreGE := ⟨fun a b => le_total b.score a.score⟩

instance : IsTrans Entry scoreGE := ⟨fun _ _ _ h1 h2 => le_trans h2 h1⟩

/-- The high-score insertion of `end_screen` (source lines 584-587): append
the new entry, sort by score descending, keep the first 3.  The Python
builtin `sorted` is a stable sort; it is modelled by the stable Mathlib
`insertionSort` under `scoreGE` (ties keep list order, and the new entry is
appended last). -/
def insert_score (name : String) (score : Int) (scores : List Entry) : List Entry :=
  (List.insertionSort scoreGE (scores ++ [{ name := name, score := score }])).take 3

/-- A recognizer oracle for concrete runs: succeeds on every step of level
1 and on step 0 of level 2, fails on everything else (so the first failure
along the traversal of the game is level 2, step index 1). -/
def wDetect : Nat → Nat → String → ℚ → Bool :=
  fun l i _ _ => decide (l ≤ 1) || (decide (l = 2) && decide (i = 0))

/-- A concrete poll stream for `detect_action`: the button is pressed at
elapsed time 0; the second poll is already past any deadline `≤ 2`. -/
def wSamples : List Sample :=
  [⟨0, false, false, false, 0, 0, 0⟩, ⟨2, false, false, true, 0, 0, 0⟩]

/-- A concrete initial decoder/filter state. -/
def wState : DetState := ⟨⟨0, (false, false)⟩, 0, 0, 0⟩

/-- The generated sequence always has length `level + 1`. -/
theorem length_generate_sequence (rng : Nat → Nat) (level : Nat) :
    (generate_sequence rng level).length = level + 1 := by
  simp [generate_sequence]

/-- Every generated element is one of the five actions. -/
theorem mem_generate_sequence (rng : Nat → Nat) (level : Nat) :
    ∀ a ∈ generate_sequence rng level, a ∈ ACTIONS := by
  intro a ha
  simp only [generate_sequence, List.mem_map, List.mem_range] at ha
  obtain ⟨i, -, rfl⟩ := ha
  have h5 : rng i % 5 = 0 ∨ rng i % 5 = 1 ∨ rng i % 5 = 2 ∨ rng i % 5 = 3 ∨ rng i % 5 = 4 := by
    omega
  rcases h5 with h | h | h | h | h <;> rw [h] <;> decide

/-- Claim C8: for every level, `generate_sequence(level)` returns a list of
length exactly `level + 1` whose every element belongs to the fixed
5-element action set, whatever the random source yields. -/
theorem generate_sequence_spec (rng : Nat → Nat) (level : Nat) :
    (generate_sequence rng level).length = level + 1 ∧
    ∀ a ∈ generate_sequence rng level, a ∈ ACTIONS :=
  ⟨length_generate_sequence rng level, mem_generate_sequence rng level⟩

/-- Witness for C8 at a concrete random source and level. -/
theorem generate_sequence_spec_w :
    (generate_sequence (fun _ => 0) 1).length = 1 + 1 ∧ "PAW" ∈ ACTIONS :=
  ⟨(generate_sequence_spec (fun _ => 0) 1).1,
   (generate_sequence_spec (fun _ => 0) 1).2 "PAW" (by decide)⟩

/-- Claim C9: when the persisted store cannot be read (`none`),
`load_highscores` returns the three default zero-score placeholders and no
error reaches the caller (the function is total: a successful read is
passed through unchanged). -/
theorem load_highscores_spec :
    load_highscores none = [⟨"AAA", 0⟩, ⟨"BBB", 0⟩, ⟨"CCC", 0⟩] ∧
    ∀ r, load_highscores (some r) = r :=
  ⟨rfl, fun _ => rfl⟩

/-- Claim C3: the encoder counter changes only on a call where the sampled
pair differs from the stored pair and the clock goes low→high, and then by
exactly `+1` (data low) or `-1` (data high); identical pairs leave the
state untouched, and any other change (clock falling, data-only) refreshes
the stored pair but leaves the counter unchanged. -/
theorem update_encoder_spec (st : EncState) (clk dt : Bool) :
    ((clk, dt) = st.last → update_encoder st clk dt = st) ∧
    ((clk, dt) ≠ st.last → st.last.1 = false → clk = true →
      (update_encoder st clk dt).value = st.value + (if dt = false then 1 else -1) ∧
      (update_encoder st clk dt).last = (clk, dt)) ∧
    ((clk, dt) ≠ st.last → ¬(st.last.1 = false ∧ clk = true) →
      (update_encoder st clk dt).value = st.value ∧
      (update_encoder st clk dt).last = (clk, dt)) := by
  obtain ⟨v, l1, l2⟩ := st
  cases clk <;> cases dt <;> cases l1 <;> cases l2 <;> simp [update_encoder, sub_eq_add_neg]

/-- Witness for C3: a rising clock edge with data low on a changed pair
adds exactly 1. -/
theorem update_encoder_spec_w :
    (update_encoder ⟨0, (false, false)⟩ true false).value = 0 + (if false = false then 1 else -1) ∧
    (update_encoder ⟨0, (false, false)⟩ true false).last = (true, false) :=
  (update_encoder_spec ⟨0, (false, false)⟩ true false).2.1 (by decide) rfl rfl

/-- One filter update moves the value toward the raw input by exactly the
factor `1 - alpha = 0.8`. -/
theorem emaStep_sub (v prev : ℚ) : emaStep v prev - v = (8 / 10) * (prev - v) := by
  unfold emaStep alpha
  ring

/-- Distance form of `emaStep_sub`. -/
theorem abs_emaStep_sub (v prev : ℚ) : |emaStep v prev - v| = (8 / 10) * |prev - v| := by
  rw [emaStep_sub, abs_mul, abs_of_pos (by norm_num : (0:ℚ) < 8 / 10)]

/-- Claim C7: each `read_accel` call updates every axis as
`filtered = 0.2*raw + 0.8*previous` (the state being threaded through the
calls), and on a constant raw stream of value `v` the distance to `v`
shrinks by exactly the factor `0.8` per update — hence after `n` updates it
is `0.8^n` times the initial distance, converging monotonically to `v`. -/
theorem read_accel_spec (v prev : ℚ) (raw f : ℚ × ℚ × ℚ) (n : Nat) :
    read_accel raw f = (emaStep raw.1 f.1, emaStep raw.2.1 f.2.1, emaStep raw.2.2 f.2.2) ∧
    |emaStep v prev - v| = (8 / 10) * |prev - v| ∧
    |emaStep v prev - v| ≤ |prev - v| ∧
    |emaIter v prev n - v| = (8 / 10) ^ n * |prev - v| := by
  refine ⟨rfl, abs_emaStep_sub v prev, ?_, ?_⟩
  · rw [abs_emaStep_sub]
    have h := abs_nonneg (prev - v)
    nlinarith
  · induction n with
    | zero => simp [emaIter]
    | succ n ih =>
      show |emaStep v (emaIter v prev n) - v| = _
      rw [abs_emaStep_sub, ih, pow_succ]
      ring

/-- Claim C6: the per-gesture time limit at level `level` is
`base * 0.92 ^ level` with base 2.0 / 1.5 / 1.0 for EASY / MEDIUM / HARD,
it is strictly decreasing in the level for every difficulty (the limit is a
function of the level only, so it is identical for every step within a
level), and EASY at level 1 gives `2.0 * 0.92 = 1.84`. -/
theorem time_limit_spec (diff : String) (level : Nat) :
    baseOf "EASY" = 2 ∧ baseOf "MEDIUM" = 3 / 2 ∧ baseOf "HARD" = 1 ∧
    time_limit diff level = baseOf diff * (92 / 100) ^ level ∧
    time_limit diff (level + 1) < time_limit diff level ∧
    time_limit "EASY" 1 = 184 / 100 := by
  refine ⟨rfl, rfl, rfl, rfl, ?_, by norm_num [time_limit, baseOf]⟩
  have hbase : 0 < baseOf diff := by
    unfold baseOf
    split_ifs <;> norm_num
  have hpow : (0:ℚ) < (92 / 100) ^ level := pow_pos (by norm_num) level
  unfold time_limit
  rw [pow_succ, ← mul_assoc]
  exact mul_lt_of_lt_one_right (by positivity) (by norm_num)

/-- Counterexample to claim C4 as stated: with a single loaded entry of
score 5, a final score of 3 exceeds the zero-padded lowest slot (so the
claim says it qualifies), but the code compares against the last held
score 5 and does not trigger name entry. -/
theorem qualifies_cex :
    ¬ qualifies_code 3 [⟨"AAA", 5⟩] = some (qualifies_spec 3 [⟨"AAA", 5⟩]) := by
  decide

/-- Claim C4 (amended): the code triggers name entry iff the score strictly
exceeds the score of the **last** loaded entry; when the loaded list is
sorted descending with exactly 3 entries — the shape the game itself
maintains — this coincides with strictly exceeding the lowest held score
(missing-slot zero padding never applies). -/
theorem qualifies_code_spec (score : Int) (entries : List Entry)
    (hlen : entries.length = 3) (hsorted : entries.Pairwise scoreGE) :
    qualifies_code score entries = some (qualifies_spec score entries) := by
  match entries, hlen with
  | [a, b, c], _ =>
    have hab : b.score ≤ a.score := (List.pairwise_cons.mp hsorted).1 b (by simp)
    have hbc : c.score ≤ b.score :=
      (List.pairwise_cons.mp (List.pairwise_cons.mp hsorted).2).1 c (by simp)
    simp only [qualifies_code, qualifies_spec, paddedScores, List.map, List.length,
      List.getLast?, List.getLast, List.min?, List.foldl, List.append_nil,
      List.replicate, Option.getD]
    rw [min_eq_right hab, min_eq_right hbc]

/-- Witness for C4 (amended), which is also the example of the spec: score 50
against the sorted entries 100, 80, 60 does not qualify. -/
theorem qualifies_code_spec_w :
    qualifies_code 50 [⟨"A", 100⟩, ⟨"B", 80⟩, ⟨"C", 60⟩] = some false ∧
    qualifies_code 50 [⟨"A", 100⟩, ⟨"B", 80⟩, ⟨"C", 60⟩] =
      some (qualifies_spec 50 [⟨"A", 100⟩, ⟨"B", 80⟩, ⟨"C", 60⟩]) :=
  ⟨by decide, qualifies_code_spec 50 _ (by decide) (by decide)⟩

/-- Claim C5: inserting a qualifying entry appends it, stably sorts by
score descending and truncates to 3, so the result never exceeds 3 entries
and is sorted descending; inserting 70 into 100/80/60 keeps the first two,
places the new entry third and drops the old 60. -/
theorem insert_score_spec (name : String) (score : Int) (scores : List Entry) :
    (insert_score name score scores).length ≤ 3 ∧
    (insert_score name score scores).Pairwise scoreGE ∧
    insert_score "NEW" 70 [⟨"A", 100⟩, ⟨"B", 80⟩, ⟨"C", 60⟩] =
      [⟨"A", 100⟩, ⟨"B", 80⟩, ⟨"NEW", 70⟩] := by
  refine ⟨List.length_take_le 3 _, ?_, by decide⟩
  have hs := List.sorted_insertionSort scoreGE (scores ++ [{ name := name, score := score }])
  exact List.Pairwise.sublist (List.take_sublist 3 _) hs

/-- If the step loop reports success it walked the whole sequence, adding
exactly 1 per step. -/
theorem stepLoop_true (detect : Nat → Nat → String → ℚ → Bool) (diff : String) (level : Nat) :
    ∀ (seq : List String) (i score s : Nat),
      stepLoop detect diff level seq i score = (s, true) → s = score + seq.length := by
  intro seq
  induction seq with
  | nil =>
    intro i score s h
    simp only [stepLoop, Prod.mk.injEq] at h
    obtain ⟨h1, -⟩ := h
    simpa using h1.symm
  | cons act rest ih =>
    intro i score s h
    simp only [stepLoop] at h
    split at h
    · have := ih (i + 1) (score + 1) s h
      simp only [List.length_cons]
      omega
    · exact absurd (congrArg Prod.snd h) (by simp)

/-- If the recognizer succeeds on every step of the sequence, the step loop
returns success having added the length of the sequence to the score. -/
theorem stepLoop_all (detect : Nat → Nat → String → ℚ → Bool) (diff : String) (level : Nat) :
    ∀ (seq : List String) (i score : Nat),
      (∀ j a t, j < seq.length → detect level (i + j) a t = true) →
      stepLoop detect diff level seq i score = (score + seq.length, true) := by
  intro seq
  induction seq with
  | nil => intro i score _; simp [stepLoop]
  | cons act rest ih =>
    intro i score h
    have h0 : detect level i act (time_limit diff level) = true := by
      have := h 0 act (time_limit diff level) (by simp)
      simpa using this
    simp only [stepLoop, h0, if_true]
    have h' : ∀ j a t, j < rest.length → detect level (i + 1 + j) a t = true := by
      intro j a t hj
      have := h (j + 1) a t (by simp only [List.length_cons]; omega)
      rwa [show i + (j + 1) = i + 1 + j by omega] at this
    rw [ih (i + 1) (score + 1) h']
    simp only [List.length_cons, Prod.mk.injEq]
    exact ⟨by omega, trivial⟩

/-- If the recognizer succeeds on the first `m` steps and fails on step
index `m` (within the sequence), the step loop stops there with `m` added
to the score and reports failure. -/
theorem stepLoop_fail (detect : Nat → Nat → String → ℚ → Bool) (diff : String) (level : Nat) :
    ∀ (seq : List String) (m i score : Nat),
      m < seq.length →
      (∀ j a t, j < m → detect level (i + j) a t = true) →
      (∀ a t, detect level (i + m) a t = false) →
      stepLoop detect diff level seq i score = (score + m, false) := by
  intro seq
  induction seq with
  | nil => intro m i score hm _ _; simp at hm
  | cons act rest ih =>
    intro m i score hm hpre hfail
    cases m with
    | zero =>
      have h0 : detect level i act (time_limit diff level) = false := by
        have := hfail act (time_limit diff level)
        simpa using this
      simp [stepLoop, h0]
    | succ m =>
      have h0 : detect level i act (time_limit diff level) = true := by
        have := hpre 0 act (time_limit diff level) (Nat.succ_pos m)
        simpa using this
      simp only [stepLoop, h0, if_true]
      have hm' : m < rest.length := by
        simp only [List.length_cons] at hm
        omega
      have hpre' : ∀ j a t, j < m → detect level (i + 1 + j) a t = true := by
        intro j a t hj
        have := hpre (j + 1) a t (by omega)
        rwa [show i + (j + 1) = i + 1 + j by omega] at this
      have hfail' : ∀ a t, detect level (i + 1 + m) a t = false := by
        intro a t
        have := hfail a t
        rwa [show i + (m + 1) = i + 1 + m by omega] at this
      rw [ih m (i + 1) (score + 1) hm' hpre' hfail']
      simp only [Prod.mk.injEq]
      exact ⟨by omega, trivial⟩

/-- If the level loop reports a win, the final score is the starting score
plus, for each level played, its step count `level + 1` and the flat `+5`
bonus. -/
theorem levelLoop_true (detect : Nat → Nat → String → ℚ → Bool) (rng : Nat → Nat → Nat)
    (diff : String) :
    ∀ (fuel lev score s : Nat),
      levelLoop detect rng diff lev score fuel = (s, true) →
      s = score + ∑ l ∈ Finset.Ico lev (lev + fuel), (l + 1 + 5) := by
  intro fuel
  induction fuel with
  | zero =>
    intro lev score s h
    simp only [levelLoop, Prod.mk.injEq] at h
    simp [← h.1]
  | succ fuel ih =>
    intro lev score s h
    simp only [levelLoop] at h
    rcases hr : stepLoop detect diff lev (generate_sequence (rng lev) lev) 0 score with ⟨rs, rb⟩
    rw [hr] at h
    cases rb with
    | false => simp at h
    | true =>
      simp only [if_true] at h
      have hrs : rs = score + (lev + 1) := by
        have := stepLoop_true detect diff lev _ 0 score rs hr
        rwa [length_generate_sequence] at this
      have hs := ih (lev + 1) (rs + 5) s h
      have hco : lev + (fuel + 1) = lev + 1 + fuel := by omega
      rw [hco, Finset.sum_eq_sum_Ico_succ_bot (by omega : lev < lev + 1 + fuel)]
      omega

/-- If the recognizer succeeds on every step of every level strictly below
`L` and first fails at level `L`, step index `S - 1`, the level loop stops
inside level `L` with the accumulated score and no bonus for level `L`. -/
theorem levelLoop_fail (detect : Nat → Nat → String → ℚ → Bool) (rng : Nat → Nat → Nat)
    (diff : String) (L S : Nat)
    (hS1 : 1 ≤ S) (hS : S ≤ L + 1)
    (hpre : ∀ l i a t, l < L → i ≤ l → detect l i a t = true)
    (hrow : ∀ i a t, i + 1 < S → detect L i a t = true)
    (hfail : ∀ a t, detect L (S - 1) a t = false) :
    ∀ (fuel lev score : Nat), lev ≤ L → L < lev + fuel →
      levelLoop detect rng diff lev score fuel =
        (score + (∑ l ∈ Finset.Ico lev L, (l + 1 + 5)) + (S - 1), false) := by
  intro fuel
  induction fuel with
  | zero => intro lev score h1 h2; omega
  | succ fuel ih =>
    intro lev score hlev hfuel
    simp only [levelLoop]
    rcases eq_or_lt_of_le hlev with rfl | hlt
    · have hm : S - 1 < (generate_sequence (rng lev) lev).length := by
        rw [length_generate_sequence]
        omega
      have hpre' : ∀ j a t, j < S - 1 → detect lev (0 + j) a t = true := by
        intro j a t hj
        have := hrow j a t (by omega)
        simpa using this
      have hfail' : ∀ a t, detect lev (0 + (S - 1)) a t = false := by
        intro a t
        simpa using hfail a t
      rw [stepLoop_fail detect diff lev _ (S - 1) 0 score hm hpre' hfail']
      simp [Finset.Ico_self]
    · have hall : ∀ j a t, j < (generate_sequence (rng lev) lev).length →
          detect lev (0 + j) a t = true := by
        intro j a t hj
        rw [length_generate_sequence] at hj
        exact hpre lev (0 + j) a t hlt (by omega)
      rw [stepLoop_all detect diff lev _ 0 score hall]
      simp only [length_generate_sequence]
      rw [if_pos trivial]
      rw [ih (lev + 1) (score + (lev + 1) + 5) (by omega) (by omega)]
      rw [Finset.sum_eq_sum_Ico_succ_bot (hlt : lev < L)]
      simp only [Prod.mk.injEq]
      exact ⟨by omega, trivial⟩

/-- Claim C1: if the recognizer first fails at level `L` (1-based), step
`S` (1-based), `play_game` returns `won = false` with score equal to the
sum over completed prior levels `l < L` of `(l + 1) + 5` (one point per
successful gesture, a flat `+5` per completed level) plus `S - 1` for the
failing level, with no bonus for the failing level. -/
theorem play_game_fail_score (detect : Nat → Nat → String → ℚ → Bool) (rng : Nat → Nat → Nat)
    (diff : String) (L S : Nat)
    (hL1 : 1 ≤ L) (hL10 : L ≤ 10) (hS1 : 1 ≤ S) (hS : S ≤ L + 1)
    (hpre : ∀ l i a t, l < L → i ≤ l → detect l i a t = true)
    (hrow : ∀ i a t, i + 1 < S → detect L i a t = true)
    (hfail : ∀ a t, detect L (S - 1) a t = false) :
    play_game detect rng diff = ((∑ l ∈ Finset.Ico 1 L, (l + 1 + 5)) + (S - 1), false) := by
  have h := levelLoop_fail detect rng diff L S hS1 hS hpre hrow hfail 10 1 0 hL1 (by omega)
  simpa [play_game] using h

/-- Witness for C1: a recognizer forced to fail first at level 2, step 2
yields score `(2 steps of level 1 + 5) + 1 = 8` and a loss. -/
theorem play_game_fail_score_w :
    play_game wDetect (fun _ _ => 0) "EASY" = (8, false) := by
  have h := play_game_fail_score wDetect (fun _ _ => 0) "EASY" 2 2
    (by norm_num) (by norm_num) (by norm_num) (by norm_num)
    (fun l i a t hl hi => by simp [wDetect]; omega)
    (fun i a t hi => by simp [wDetect]; omega)
    (fun a t => rfl)
  rw [h]
  decide

/-- Claim C10: whenever `play_game` reports a win, the score is exactly
115: each level `l` of 1..10 contributes `l + 1` step points plus the flat
5-point bonus, `65 + 50 = 115`. -/
theorem play_game_win_score (detect : Nat → Nat → String → ℚ → Bool) (rng : Nat → Nat → Nat)
    (diff : String) (s : Nat)
    (h : play_game detect rng diff = (s, true)) : s = 115 := by
  have h' : levelLoop detect rng diff 1 0 10 = (s, true) := h
  have := levelLoop_true detect rng diff 10 1 0 s h'
  rw [this]
  decide

/-- Witness for C10: the always-succeeding recognizer wins with score 115. -/
theorem play_game_win_score_w :
    play_game (fun _ _ _ _ => true) (fun _ _ => 0) "EASY" = (115, true) ∧ (115 : Nat) = 115 :=
  ⟨by decide,
   play_game_win_score (fun _ _ _ _ => true) (fun _ _ => 0) "EASY" 115 (by decide)⟩

/-- `stateAfter` on an empty poll list. -/
theorem stateAfter_nil (st : DetState) : stateAfter st [] = st := rfl

/-- `stateAfter` peels one poll. -/
theorem stateAfter_cons (st : DetState) (s : Sample) (l : List Sample) :
    stateAfter st (s :: l) = stateAfter (stepState st s) l := rfl

/-- Termination of the polling loop: as soon as some poll in the stream is
at or past the deadline, `detect_aux` returns a result. -/
theorem detect_aux_isSome (action : String) (limit : ℚ) :
    ∀ (samples : List Sample) (st : DetState),
      (∃ s ∈ samples, limit ≤ s.elapsed) →
      (detect_aux action limit samples st).isSome = true := by
  intro samples
  induction samples with
  | nil => intro st h; simp at h
  | cons s rest ih =>
    intro st h
    simp only [detect_aux]
    by_cases ht : limit ≤ s.elapsed
    · rw [if_pos ht]
      rfl
    · rw [if_neg ht]
      by_cases hp : predHolds action (stepState st s) s = true
      · rw [if_pos hp]
        rfl
      · rw [if_neg hp]
        apply ih
        obtain ⟨x, hx, hlx⟩ := h
        rcases List.mem_cons.mp hx with rfl | hx'
        · exact absurd hlx ht
        · exact ⟨x, hx', hlx⟩

/-- The polling loop announces success exactly when some poll is a first
match: strictly before the deadline, predicate true there and at no
earlier poll. -/
theorem detect_aux_true_iff (action : String) (limit : ℚ) :
    ∀ (samples : List Sample) (st : DetState),
      detect_aux action limit samples st = some true ↔ FirstMatch action limit st samples := by
  intro samples
  induction samples with
  | nil =>
    intro st
    simp [detect_aux, FirstMatch]
  | cons s rest ih =>
    intro st
    simp only [detect_aux]
    by_cases ht : limit ≤ s.elapsed
    · rw [if_pos ht]
      simp only [FirstMatch]
      constructor
      · intro h
        exact absurd h (by simp)
      · rintro ⟨n, hn, hk, -, -⟩
        have h0 := hk 0 (Nat.zero_le n)
        simp only [List.getD_cons_zero] at h0
        exact absurd ht (not_le.mpr h0)
    · rw [if_neg ht]
      by_cases hp : predHolds action (stepState st s) s = true
      · rw [if_pos hp]
        simp only [FirstMatch]
        constructor
        · intro _
          refine ⟨0, by simp, ?_, ?_, ?_⟩
          · intro k hk
            have hk0 : k = 0 := Nat.le_zero.mp hk
            subst hk0
            simp only [List.getD_cons_zero]
            exact not_le.mp ht
          · simpa only [List.take_succ_cons, List.take_zero, stateAfter_cons, stateAfter_nil,
              List.getD_cons_zero] using hp
          · intro k hk
            exact absurd hk (Nat.not_lt_zero k)
        · intro _
          trivial
      · have hp0 : predHolds action (stepState st s) s = false := by
          revert hp
          cases predHolds action (stepState st s) s <;> simp
        rw [if_neg hp]
        rw [ih (stepState st s)]
        simp only [FirstMatch]
        constructor
        · rintro ⟨n, hn, hk, hpred, hmin⟩
          refine ⟨n + 1, by simp only [List.length_cons]; omega, ?_, ?_, ?_⟩
          · intro k hkn
            cases k with
            | zero =>
              simp only [List.getD_cons_zero]
              exact not_le.mp ht
            | succ k =>
              simp only [List.getD_cons_succ]
              exact hk k (by omega)
          · simpa only [List.take_succ_cons, stateAfter_cons, List.getD_cons_succ] using hpred
          · intro k hkn
            cases k with
            | zero =>
              simpa only [List.take_succ_cons, List.take_zero, stateAfter_cons, stateAfter_nil,
                List.getD_cons_zero] using hp0
            | succ k =>
              simp only [List.getD_cons_succ, List.take_succ_cons, stateAfter_cons]
              exact hmin k (by omega)
        · rintro ⟨n, hn, hk, hpred, hmin⟩
          cases n with
          | zero =>
            exfalso
            apply hp
            simpa only [List.take_succ_cons, List.take_zero, stateAfter_cons, stateAfter_nil,
              List.getD_cons_zero] using hpred
          | succ n =>
            refine ⟨n, by simp only [List.length_cons] at hn; omega, ?_, ?_, ?_⟩
            · intro k hkn
              have := hk (k + 1) (by omega)
              simpa only [List.getD_cons_succ] using this
            · simpa only [List.take_succ_cons, stateAfter_cons, List.getD_cons_succ] using hpred
            · intro k hkn
              have := hmin (k + 1) (by omega)
              simpa only [List.getD_cons_succ, List.take_succ_cons, stateAfter_cons] using this

/-- Claim C2: provided the monotonic clock eventually reaches the deadline
(some poll in the stream is at or past it), `detect_action` terminates with
a result; it resets the cumulative encoder counter at entry (the run is
over `resetEnc st`), succeeds exactly when some poll strictly before the
deadline is the first whose gesture predicate holds, and fails exactly
otherwise (deadline reached with no predicate satisfied). -/
theorem detect_action_spec (action : String) (limit : ℚ) (samples : List Sample) (st : DetState)
    (hdl : ∃ s ∈ samples, limit ≤ s.elapsed) :
    (detect_action action limit samples st).isSome = true ∧
    (detect_action action limit samples st = some true ↔
      FirstMatch action limit (resetEnc st) samples) ∧
    (detect_action action limit samples st = some false ↔
      ¬ FirstMatch action limit (resetEnc st) samples) := by
  have h1 : (detect_action action limit samples st).isSome = true :=
    detect_aux_isSome action limit samples (resetEnc st) hdl
  have h2 : detect_action action limit samples st = some true ↔
      FirstMatch action limit (resetEnc st) samples :=
    detect_aux_true_iff action limit samples (resetEnc st)
  refine ⟨h1, h2, ?_⟩
  rcases hv : detect_action action limit samples st with _ | b
  · rw [hv] at h1
    simp at h1
  · cases b
    · constructor
      · intro _ hfm
        have := h2.mpr hfm
        rw [hv] at this
        simp at this
      · intro _
        rfl
    · constructor
      · intro h
        simp at h
      · intro hn
        exact absurd (h2.mp hv) hn

/-- Witness for C2 at a concrete gesture, deadline, poll stream and state. -/
theorem detect_action_spec_w :
    (detect_action "PAW" 1 wSamples wState).isSome = true :=
  (detect_action_spec "PAW" 1 wSamples wState (by decide)).1

end CatChaos
